import Mathlib

/-!
Verification of the VISUALGIT file-tree-to-graph transformation and the
repository-input parsing routine.

The definitions below are a shallow embedding of the TypeScript source:
  * `generateGraphFromTree` embeds the function of the same name
    (RepoAnalyzer component, lines 164-206): it folds a list of file
    entries into a node/link graph, keyed by cumulative path strings.
    JavaScript `String.prototype.split` keeps empty tokens, and so does
    the structurally recursive model `jsSplit` used here (the core
    `String.splitOn` agrees but does not reduce inside the kernel, so a
    computable model is used).  The JavaScript truthiness test
    `currentPath ? ... : part` is the test `currentPath = ""` on strings.
    `Array.prototype.pop()` on the non-empty result of a split is
    `List.getLastD ""` (the `ext || ''` guard in the source maps
    `undefined` to the empty string, which `getLastD ""` also yields on
    the impossible empty-list case).
  * `parseRepoInput` embeds the function of the same name (lines 65-77).
    The browser primitive `new URL(...)` is not code of this repository;
    it is modelled by `parseUrl?`, a simplified WHATWG parser accepting
    the `scheme "://" host "/segment..."` shapes relevant here and
    rejecting everything else.  `jsTrim` stands in for the JavaScript
    `trim` (both strip ASCII whitespace from the two ends).
-/

structure FileEntry where
  path : String
  type : String
deriving Repr, DecidableEq

structure D3Node where
  id : String
  group : Nat
  label : String
deriving Repr, DecidableEq

structure D3Link where
  source : String
  target : String
  value : Nat
deriving Repr, DecidableEq

structure DataFlowGraph where
  nodes : List D3Node
  links : List D3Link
deriving Repr, DecidableEq

/-- Accumulator threaded through the fold of `generateGraphFromTree`:
the node list, the link list, the path-to-id lookup map and the id
counter, exactly the four mutable locals of the source function. -/
structure BuildState where
  nodes : List D3Node
  links : List D3Link
  pathMap : List (String × String)
  nodeIdCounter : Nat
deriving Repr, DecidableEq

/-- Split a list of characters at every occurrence of `c`, keeping empty
pieces, exactly as JavaScript `String.prototype.split` does with a
one-character separator: `"a//b".split("/")` is `["a", "", "b"]` and
`"".split("/")` is `[""]`. -/
def splitOnCharAux (c : Char) : List Char → List (List Char)
  | [] => [[]]
  | x :: xs =>
    let r := splitOnCharAux c xs
    if x = c then [] :: r
    else
      match r with
      | [] => [[x]]
      | t :: ts => (x :: t) :: ts

/-- The JavaScript `split` with a one-character separator, as a
structurally recursive function on the string's character list. -/
def jsSplit (s : String) (c : Char) : List String :=
  (splitOnCharAux c s.data).map fun l => { data := l }

/-- Group assigned to a final path segment, from the source lines
188-196: take the token after the last `.` (the whole segment when no
`.` occurs) and run it through three sequential `includes` tests. -/
def extGroup (part : String) : Nat :=
  let ext := (jsSplit part '.').getLastD ""
  let g := 1
  let g := if ["ts", "tsx", "js", "jsx"].contains ext then 2 else g
  let g := if ["css", "scss", "html"].contains ext then 3 else g
  if ["json", "yml", "config"].contains ext then 4 else g

/-- One step of the cumulative path:
`currentPath = currentPath ? currentPath + "/" + part : part`. -/
def joinStep (cp part : String) : String :=
  if cp = "" then part else cp ++ "/" ++ part

/-- Body of the inner `parts.forEach` loop (source lines 179-202).
Returns the updated accumulator, the updated cumulative path and the
updated parent id.  The final `pathMap.get(currentPath)!` of the source
is modelled with the default `"!"`; `processPartChecked` below shows
the lookup in fact always succeeds. -/
def processPart (s : BuildState) (cp parentId part : String) (isLast : Bool) :
    BuildState × String × String :=
  let cp := joinStep cp part
  let s :=
    if (s.pathMap.lookup cp).isSome then s
    else
      let id := "node_" ++ toString s.nodeIdCounter
      let group := if isLast then extGroup part else 5
      { nodes := s.nodes ++ [{ id := id, group := group, label := part }],
        links := s.links ++ [{ source := parentId, target := id, value := 1 }],
        pathMap := (cp, id) :: s.pathMap,
        nodeIdCounter := s.nodeIdCounter + 1 }
  (s, cp, (s.pathMap.lookup cp).getD "!")

/-- The inner `parts.forEach` loop: `isLast` holds exactly on the final
segment, i.e. when the remainder of the list is empty. -/
def processParts (s : BuildState) (cp parentId : String) :
    List String → BuildState
  | [] => s
  | part :: rest =>
    let r := processPart s cp parentId part rest.isEmpty
    processParts r.1 r.2.1 r.2.2 rest

/-- Body of the outer `limitedTree.forEach` loop (source lines 174-203):
split the entry's path on `/` and fold the segments starting from the
empty cumulative path and the root parent. -/
def processEntry (s : BuildState) (file : FileEntry) : BuildState :=
  processParts s "" "root" (jsSplit file.path '/')

/-- Initial accumulator (source lines 165-170). -/
def initState : BuildState :=
  { nodes := [{ id := "root", group := 0, label := "root" }],
    links := [],
    pathMap := [("", "root")],
    nodeIdCounter := 1 }

/-- The graph assembler `generateGraphFromTree` (source lines 164-206):
truncate to the first 100 entries (`tree.slice(0, 100)`), fold, and
return the accumulated nodes and links. -/
def generateGraphFromTree (tree : List FileEntry) : DataFlowGraph :=
  let s := (tree.take 100).foldl processEntry initState
  { nodes := s.nodes, links := s.links }

/-- Variant of `processPart` that treats the `pathMap.get(currentPath)!`
lookup as fallible, returning `none` where the source's non-null
assertion would be violated. -/
def processPartChecked (s : BuildState) (cp parentId part : String)
    (isLast : Bool) : Option (BuildState × String × String) :=
  let cp := joinStep cp part
  let s :=
    if (s.pathMap.lookup cp).isSome then s
    else
      let id := "node_" ++ toString s.nodeIdCounter
      let group := if isLast then extGroup part else 5
      { nodes := s.nodes ++ [{ id := id, group := group, label := part }],
        links := s.links ++ [{ source := parentId, target := id, value := 1 }],
        pathMap := (cp, id) :: s.pathMap,
        nodeIdCounter := s.nodeIdCounter + 1 }
  match s.pathMap.lookup cp with
  | some pid => some (s, cp, pid)
  | none => none

/-- Fallible variant of `processParts`. -/
def processPartsChecked (s : BuildState) (cp parentId : String) :
    List String → Option BuildState
  | [] => some s
  | part :: rest =>
    match processPartChecked s cp parentId part rest.isEmpty with
    | some r => processPartsChecked r.1 r.2.1 r.2.2 rest
    | none => none

/-- Fallible variant of `processEntry`. -/
def processEntryChecked (s : BuildState) (file : FileEntry) :
    Option BuildState :=
  processPartsChecked s "" "root" (jsSplit file.path '/')

/-- Fallible variant of `generateGraphFromTree`: propagates a failure of
the source's non-null assertion instead of defaulting. -/
def generateGraphFromTreeChecked (tree : List FileEntry) :
    Option DataFlowGraph :=
  ((tree.take 100).foldlM processEntryChecked initState).map
    fun s => { nodes := s.nodes, links := s.links }

/-- Strip a single trailing slash: `input.replace(/\/$/, "")`. -/
def stripTrailingSlash (s : String) : String :=
  if s.data.getLast? = some '/' then { data := s.data.dropLast } else s

/-- The JavaScript `String.prototype.trim`, restricted to the ASCII
whitespace characters relevant here: drop whitespace from both ends. -/
def jsTrim (s : String) : String :=
  { data := ((s.data.dropWhile Char.isWhitespace).reverse.dropWhile
      Char.isWhitespace).reverse }

/-- Hostname and pathname of a parsed URL, the two pieces of the browser
`URL` object that `parseRepoInput` reads. -/
structure UrlParts where
  hostname : String
  pathname : String
deriving Repr, DecidableEq

/-- Break a character list at the first occurrence of the three-letter
sequence `"://"`, returning the text before it and the text after it. -/
def breakOnScheme : List Char → Option (List Char × List Char)
  | [] => none
  | c :: rest =>
    if c = ':' ∧ rest.take 2 = ['/', '/'] then some ([], rest.drop 2)
    else
      match breakOnScheme rest with
      | some (pre, post) => some (c :: pre, post)
      | none => none

/-- Modelled platform primitive: the browser `new URL(...)` constructor,
simplified to absolute URLs of the shape `scheme "://" host ...` with an
alphabetic scheme and a non-empty host.  Inputs without `"://"` (such as
a bare `owner/repo` token) make the real constructor throw and make this
model return `none`. -/
def parseUrl? (s : String) : Option UrlParts :=
  match breakOnScheme s.data with
  | some (scheme, remainder) =>
    if scheme = [] ∨ ¬ (scheme.all Char.isAlpha) then none
    else
      let host := remainder.takeWhile fun c => c ≠ '/'
      if host = [] then none
      else some { hostname := { data := host },
                  pathname := { data := remainder.drop host.length } }
  | none => none

/-- The upstream input routine `parseRepoInput` (source lines 65-77):
trim, drop one trailing slash, try the URL branch (hostname
`github.com`, at least two non-empty path segments), then fall back to
the bare `owner/repo` split. -/
def parseRepoInput (input : String) : Option (String × String) :=
  let cleanInput := stripTrailingSlash (jsTrim input)
  let urlResult : Option (String × String) :=
    match parseUrl? cleanInput with
    | some u =>
      if u.hostname = "github.com" then
        match (jsSplit u.pathname '/').filter (fun p => p ≠ "") with
        | owner :: repo :: _ => some (owner, repo)
        | _ => none
      else none
    | none => none
  match urlResult with
  | some r => some r
  | none =>
    match jsSplit cleanInput '/' with
    | [owner, repo] =>
      if owner ≠ "" ∧ repo ≠ "" then some (owner, repo) else none
    | _ => none

/-! ### Decimal representation: `Nat.repr` is injective

The generated node ids are `"node_" ++ toString k`; distinctness of ids
reduces to injectivity of the decimal printer, proved here by relating
`Nat.toDigitsCore` to `Nat.digits`. -/

theorem toDigitsCore_eq_digits (f : Nat) :
    ∀ (n : Nat) (ds : List Char), n < f → 0 < n →
      Nat.toDigitsCore 10 f n ds =
        ((Nat.digits 10 n).map Nat.digitChar).reverse ++ ds := by
  induction f with
  | zero => intro n ds hf _; omega
  | succ f ih =>
    intro n ds hf hn
    rw [Nat.toDigitsCore]
    by_cases h10 : n / 10 = 0
    · rw [if_pos h10, Nat.digits_def' (by norm_num) hn, h10]
      simp
    · rw [if_neg h10]
      have hdiv : n / 10 < n := Nat.div_lt_self hn (by norm_num)
      rw [ih (n / 10) _ (by omega) (Nat.pos_of_ne_zero h10)]
      rw [Nat.digits_def' (by norm_num) hn]
      simp

theorem toDigits_eq_digits (n : Nat) (hn : 0 < n) :
    Nat.toDigits 10 n = ((Nat.digits 10 n).map Nat.digitChar).reverse := by
  rw [Nat.toDigits, toDigitsCore_eq_digits (n + 1) n [] (by omega) hn,
    List.append_nil]

theorem digitChar_injOn :
    ∀ a, a < 10 → ∀ b, b < 10 → Nat.digitChar a = Nat.digitChar b → a = b := by
  decide

theorem map_digitChar_inj :
    ∀ (l1 l2 : List Nat), (∀ x ∈ l1, x < 10) → (∀ x ∈ l2, x < 10) →
      l1.map Nat.digitChar = l2.map Nat.digitChar → l1 = l2 := by
  intro l1
  induction l1 with
  | nil => intro l2 _ _ h; cases l2 <;> simp_all
  | cons a l ih =>
    intro l2 h1 h2 h
    cases l2 with
    | nil => simp_all
    | cons b m =>
      simp only [List.map_cons, List.cons.injEq] at h
      have hab : a = b :=
        digitChar_injOn a (h1 a (by simp)) b (h2 b (by simp)) h.1
      have hlm : l = m :=
        ih m (fun x hx => h1 x (by simp [hx])) (fun x hx => h2 x (by simp [hx])) h.2
      rw [hab, hlm]

theorem natRepr_injective : Function.Injective Nat.repr := by
  intro a b h
  have hd : Nat.toDigits 10 a = Nat.toDigits 10 b := by
    have := congrArg String.data h
    simpa [Nat.repr, List.asString] using this
  rcases Nat.eq_zero_or_pos a with rfl | ha
  · rcases Nat.eq_zero_or_pos b with rfl | hb
    · rfl
    · exfalso
      rw [toDigits_eq_digits b hb] at hd
      have h0 : Nat.toDigits 10 0 = ['0'] := by decide
      rw [h0] at hd
      have : (Nat.digits 10 b).map Nat.digitChar = ['0'] := by
        have := congrArg List.reverse hd
        simpa using this.symm
      have hb1 : Nat.digits 10 b = [0] := by
        rcases hdig : Nat.digits 10 b with _ | ⟨d, rest⟩
        · rw [hdig] at this; simp at this
        · rw [hdig] at this
          rcases rest with _ | ⟨e, rest2⟩
          · simp only [List.map_cons, List.map_nil, List.cons.injEq] at this
            have hdlt : d < 10 :=
              Nat.digits_lt_base (by norm_num) (by rw [hdig]; simp)
            have : d = 0 :=
              digitChar_injOn d hdlt 0 (by norm_num) this.1
            rw [this]
          · simp at this
      have : b = 0 := by
        have := congrArg (Nat.ofDigits 10) hb1
        rwa [Nat.ofDigits_digits, Nat.ofDigits] at this
      omega
  · rcases Nat.eq_zero_or_pos b with rfl | hb
    · exfalso
      rw [toDigits_eq_digits a ha] at hd
      have h0 : Nat.toDigits 10 0 = ['0'] := by decide
      rw [h0] at hd
      have : (Nat.digits 10 a).map Nat.digitChar = ['0'] := by
        have := congrArg List.reverse hd
        simpa using this
      have ha1 : Nat.digits 10 a = [0] := by
        rcases hdig : Nat.digits 10 a with _ | ⟨d, rest⟩
        · rw [hdig] at this; simp at this
        · rw [hdig] at this
          rcases rest with _ | ⟨e, rest2⟩
          · simp only [List.map_cons, List.map_nil, List.cons.injEq] at this
            have hdlt : d < 10 :=
              Nat.digits_lt_base (by norm_num) (by rw [hdig]; simp)
            have : d = 0 :=
              digitChar_injOn d hdlt 0 (by norm_num) this.1
            rw [this]
          · simp at this
      have : a = 0 := by
        have := congrArg (Nat.ofDigits 10) ha1
        rwa [Nat.ofDigits_digits, Nat.ofDigits] at this
      omega
    · rw [toDigits_eq_digits a ha, toDigits_eq_digits b hb] at hd
      have hmap : (Nat.digits 10 a).map Nat.digitChar =
          (Nat.digits 10 b).map Nat.digitChar :=
        List.reverse_injective hd
      have hdig : Nat.digits 10 a = Nat.digits 10 b :=
        map_digitChar_inj _ _
          (fun x hx => Nat.digits_lt_base (by norm_num) hx)
          (fun x hx => Nat.digits_lt_base (by norm_num) hx) hmap
      exact Nat.digits_inj_iff.mp hdig

theorem natToString_injective {a b : Nat} (h : toString a = toString b) :
    a = b :=
  natRepr_injective h

/-! ### Ids assigned by the assembler

`nodeIdAt i` is the id the assembler gives to the node stored at list
position `i`: the synthetic root at position 0, then `"node_1"`,
`"node_2"`, ... in first-seen order of distinct cumulative paths. -/

def nodeIdAt : Nat → String
  | 0 => "root"
  | k + 1 => "node_" ++ toString (k + 1)

theorem nodeIdAt_pos {n : Nat} (h : 0 < n) :
    nodeIdAt n = "node_" ++ toString n := by
  cases n with
  | zero => omega
  | succ k => rfl

theorem node_ne_root (x : String) : "node_" ++ x ≠ "root" := by
  intro h
  have hd : ("node_" ++ x).data = "root".data := congrArg String.data h
  rw [String.data_append] at hd
  have h1 : "node_".data = ['n', 'o', 'd', 'e', '_'] := rfl
  have h2 : "root".data = ['r', 'o', 'o', 't'] := rfl
  rw [h1, h2] at hd
  have : 'n' = 'r' := by injection hd
  exact absurd this (by decide)

theorem nodeIdAt_injective : Function.Injective nodeIdAt := by
  intro a b h
  cases a with
  | zero =>
    cases b with
    | zero => rfl
    | succ k => exact absurd h.symm (node_ne_root _)
  | succ j =>
    cases b with
    | zero => exact absurd h (node_ne_root _)
    | succ k =>
      have hd := congrArg String.data h
      rw [nodeIdAt, nodeIdAt, String.data_append, String.data_append] at hd
      have := List.append_cancel_left hd
      have : toString (j + 1) = toString (k + 1) := String.ext this
      have := natToString_injective this
      omega

theorem nodeIdAt_ne_root {n : Nat} (h : 0 < n) : nodeIdAt n ≠ "root" := by
  rw [nodeIdAt_pos h]
  exact node_ne_root _

/-- Invariant maintained by the assembler's fold: the counter equals the
node count, ids are position-determined, every link at position `j`
targets the node at position `j + 1` and originates from a node created
no later than position `j`, and the lookup map only stores ids of
existing nodes. -/
structure BuildInv (s : BuildState) : Prop where
  head_root : s.nodes.head? = some { id := "root", group := 0, label := "root" }
  counter_eq : s.nodeIdCounter = s.nodes.length
  links_len : s.links.length + 1 = s.nodes.length
  ids_eq : s.nodes.map D3Node.id = (List.range s.nodes.length).map nodeIdAt
  targets_eq : s.links.map D3Link.target =
    (List.range' 1 s.links.length).map nodeIdAt
  sources_ok : ∀ j (h : j < s.links.length),
    ∃ i, i ≤ j ∧ (s.links.get ⟨j, h⟩).source = nodeIdAt i
  map_vals : ∀ p ∈ s.pathMap, ∃ i, i < s.nodes.length ∧ p.2 = nodeIdAt i

/-- A parent id is valid when it is the id of a node already created. -/
def ValidId (s : BuildState) (pid : String) : Prop :=
  ∃ i, i < s.nodes.length ∧ pid = nodeIdAt i

theorem inv_initState : BuildInv initState := by
  constructor
  · rfl
  · rfl
  · rfl
  · rfl
  · rfl
  · intro j h; simp [initState] at h
  · intro p hp
    simp only [initState, List.mem_singleton] at hp
    exact ⟨0, by simp [initState, hp], by simp [hp, nodeIdAt]⟩

theorem validId_root (s : BuildState) (hs : BuildInv s) : ValidId s "root" := by
  refine ⟨0, ?_, rfl⟩
  have := hs.links_len
  omega

/-! ### Association-list lookup helpers -/

theorem lookup_cons_self {k v : String} {m : List (String × String)} :
    ((k, v) :: m).lookup k = some v := by
  simp [List.lookup_cons]

theorem lookup_cons_ne {k q v : String} {m : List (String × String)}
    (h : q ≠ k) : ((k, v) :: m).lookup q = m.lookup q := by
  have hb : (q == k) = false := beq_eq_false_iff_ne.mpr h
  simp [List.lookup_cons, hb]

theorem mem_of_lookup_eq_some {k v : String} {m : List (String × String)}
    (h : m.lookup k = some v) : (k, v) ∈ m := by
  induction m with
  | nil => simp at h
  | cons p m ih =>
    rcases p with ⟨q, w⟩
    by_cases hk : k = q
    · subst hk
      rw [lookup_cons_self] at h
      obtain rfl := Option.some.inj h
      exact List.mem_cons_self _ _
    · rw [lookup_cons_ne hk] at h
      exact List.mem_cons_of_mem _ (ih h)

/-! ### The two shapes of a `processPart` step -/

theorem processPart_eq_found (s : BuildState) (cp pid part : String) (b : Bool)
    {v : String} (h : s.pathMap.lookup (joinStep cp part) = some v) :
    processPart s cp pid part b = (s, joinStep cp part, v) := by
  simp [processPart, h]

/-- The node appended by a creating step. -/
def newNode (s : BuildState) (part : String) (b : Bool) : D3Node :=
  { id := "node_" ++ toString s.nodeIdCounter,
    group := if b then extGroup part else 5,
    label := part }

/-- The link appended by a creating step. -/
def newLink (s : BuildState) (pid : String) : D3Link :=
  { source := pid, target := "node_" ++ toString s.nodeIdCounter, value := 1 }

theorem processPart_eq_new (s : BuildState) (cp pid part : String) (b : Bool)
    (h : s.pathMap.lookup (joinStep cp part) = none) :
    processPart s cp pid part b =
      ({ nodes := s.nodes ++ [newNode s part b],
         links := s.links ++ [newLink s pid],
         pathMap := (joinStep cp part, "node_" ++ toString s.nodeIdCounter) ::
           s.pathMap,
         nodeIdCounter := s.nodeIdCounter + 1 },
       joinStep cp part, "node_" ++ toString s.nodeIdCounter) := by
  simp [processPart, h, lookup_cons_self, newNode, newLink]

/-! ### Invariant preservation -/

theorem inv_processPart (s : BuildState) (cp pid part : String) (b : Bool)
    (hs : BuildInv s) (hpid : ValidId s pid) :
    BuildInv (processPart s cp pid part b).1 ∧
      ValidId (processPart s cp pid part b).1
        (processPart s cp pid part b).2.2 := by
  cases h : s.pathMap.lookup (joinStep cp part) with
  | some v =>
    rw [processPart_eq_found s cp pid part b h]
    exact ⟨hs, hs.map_vals _ (mem_of_lookup_eq_some h)⟩
  | none =>
    rw [processPart_eq_new s cp pid part b h]
    have hn : 0 < s.nodes.length := by
      have := hs.links_len
      omega
    have hid : "node_" ++ toString s.nodeIdCounter = nodeIdAt s.nodes.length := by
      rw [nodeIdAt_pos hn, hs.counter_eq]
    constructor
    · constructor
      · rcases hhead : s.nodes with _ | ⟨x, xs⟩
        · rw [hhead] at hn; simp at hn
        · have := hs.head_root
          rw [hhead] at this
          simpa using this
      · simp [hs.counter_eq]
      · have := hs.links_len
        simp
        omega
      · simp only [List.map_append, List.length_append, List.map_cons,
          List.map_nil, List.length_cons, List.length_nil]
        rw [hs.ids_eq, newNode]
        simp only [List.range_succ, List.map_append, List.map_cons, List.map_nil]
        rw [hid]
      · simp only [List.map_append, List.length_append, List.map_cons,
          List.map_nil, List.length_cons, List.length_nil]
        rw [hs.targets_eq, newLink]
        have hconc : List.range' 1 (s.links.length + 1) =
            List.range' 1 s.links.length ++ [1 + 1 * s.links.length] :=
          List.range'_concat 1 s.links.length
        rw [hconc]
        simp only [List.map_append, List.map_cons, List.map_nil]
        have h1m : 1 + 1 * s.links.length = s.nodes.length := by
          have := hs.links_len
          omega
        rw [h1m, hid]
      · intro j hj
        simp only [List.length_append, List.length_cons, List.length_nil] at hj
        by_cases hjm : j < s.links.length
        · obtain ⟨i, hi, hsrc⟩ := hs.sources_ok j hjm
          refine ⟨i, hi, ?_⟩
          simp only [List.get_eq_getElem] at hsrc ⊢
          rw [List.getElem_append_left hjm]
          exact hsrc
        · have hj' : j = s.links.length := by omega
          subst hj'
          obtain ⟨i, hilt, hpe⟩ := hpid
          have hll := hs.links_len
          refine ⟨i, by omega, ?_⟩
          simp only [List.get_eq_getElem]
          rw [List.getElem_concat_length _ _ _ rfl]
          rw [newLink]
          exact hpe
      · intro p hp
        rcases List.mem_cons.mp hp with hp1 | hp2
        · subst hp1
          exact ⟨s.nodes.length, by simp, hid⟩
        · obtain ⟨i, hilt, hpe⟩ := hs.map_vals p hp2
          exact ⟨i, by simp; omega, hpe⟩
    · exact ⟨s.nodes.length, by simp, hid⟩

/-- Facts about how one step may change the accumulator: nodes and links
only grow by appending, established lookup entries survive, and the
returned cumulative path is `joinStep cp part`. -/
theorem processPart_mono (s : BuildState) (cp pid part : String) (b : Bool) :
    (s.nodes <+: (processPart s cp pid part b).1.nodes) ∧
    (s.links <+: (processPart s cp pid part b).1.links) ∧
    (∀ k v, s.pathMap.lookup k = some v →
      (processPart s cp pid part b).1.pathMap.lookup k = some v) ∧
    (processPart s cp pid part b).2.1 = joinStep cp part := by
  cases h : s.pathMap.lookup (joinStep cp part) with
  | some v =>
    rw [processPart_eq_found s cp pid part b h]
    exact ⟨List.prefix_refl _, List.prefix_refl _, fun k v hk => hk, rfl⟩
  | none =>
    rw [processPart_eq_new s cp pid part b h]
    refine ⟨⟨[newNode s part b], rfl⟩, ⟨[newLink s pid], rfl⟩, ?_, rfl⟩
    intro k v hk
    have hne : k ≠ joinStep cp part := by
      intro heq
      rw [heq, h] at hk
      exact Option.noConfusion hk
    rw [lookup_cons_ne hne]
    exact hk

theorem inv_processParts (parts : List String) :
    ∀ (s : BuildState) (cp pid : String), BuildInv s → ValidId s pid →
      BuildInv (processParts s cp pid parts) := by
  induction parts with
  | nil => intro s cp pid hs _; exact hs
  | cons part rest ih =>
    intro s cp pid hs hpid
    rw [processParts]
    obtain ⟨hinv, hvalid⟩ := inv_processPart s cp pid part rest.isEmpty hs hpid
    exact ih _ _ _ hinv hvalid

theorem processParts_mono (parts : List String) :
    ∀ (s : BuildState) (cp pid : String),
      (s.nodes <+: (processParts s cp pid parts).nodes) ∧
      (s.links <+: (processParts s cp pid parts).links) ∧
      (∀ k v, s.pathMap.lookup k = some v →
        (processParts s cp pid parts).pathMap.lookup k = some v) := by
  induction parts with
  | nil =>
    intro s cp pid
    exact ⟨List.prefix_refl _, List.prefix_refl _, fun k v hk => hk⟩
  | cons part rest ih =>
    intro s cp pid
    rw [processParts]
    obtain ⟨hn1, hl1, hm1, _⟩ := processPart_mono s cp pid part rest.isEmpty
    obtain ⟨hn2, hl2, hm2⟩ := ih (processPart s cp pid part rest.isEmpty).1
      (processPart s cp pid part rest.isEmpty).2.1
      (processPart s cp pid part rest.isEmpty).2.2
    exact ⟨hn1.trans hn2, hl1.trans hl2, fun k v hk => hm2 k v (hm1 k v hk)⟩

theorem inv_processEntry (s : BuildState) (e : FileEntry) (hs : BuildInv s) :
    BuildInv (processEntry s e) :=
  inv_processParts _ s "" "root" hs (validId_root s hs)

theorem processEntry_mono (s : BuildState) (e : FileEntry) :
    (s.nodes <+: (processEntry s e).nodes) ∧
    (s.links <+: (processEntry s e).links) ∧
    (∀ k v, s.pathMap.lookup k = some v →
      (processEntry s e).pathMap.lookup k = some v) :=
  processParts_mono _ s "" "root"

theorem inv_foldl (l : List FileEntry) :
    ∀ s : BuildState, BuildInv s → BuildInv (l.foldl processEntry s) := by
  induction l with
  | nil => intro s hs; exact hs
  | cons e rest ih =>
    intro s hs
    rw [List.foldl_cons]
    exact ih _ (inv_processEntry s e hs)

/-- The invariant holds of the accumulator underlying every output
graph. -/
theorem inv_generate (tree : List FileEntry) :
    BuildInv ((tree.take 100).foldl processEntry initState) :=
  inv_foldl _ initState inv_initState

/-! ### Consequences of the invariant -/

theorem countP_beq_nodup {l : List Nat} (hnd : l.Nodup) {i : Nat}
    (hi : i ∈ l) : l.countP (fun j => j == i) = 1 := by
  induction l with
  | nil => simp at hi
  | cons a l ih =>
    rw [List.countP_cons]
    rcases List.mem_cons.mp hi with heq | hmem
    · have hnotmem : i ∉ l := by
        rw [heq]
        exact (List.nodup_cons.mp hnd).1
      have hz : l.countP (fun j => j == i) = 0 := by
        rw [List.countP_eq_zero]
        intro x hx
        simp only [beq_iff_eq]
        intro hxa
        exact hnotmem (hxa ▸ hx)
      rw [hz, ← heq]
      simp
    · have ha : (a == i) = false := by
        have hne : a ≠ i := by
          rintro rfl
          exact (List.nodup_cons.mp hnd).1 hmem
        simpa using hne
      rw [ih (List.nodup_cons.mp hnd).2 hmem, ha]
      simp

theorem mem_nodes_id {s : BuildState} (hs : BuildInv s) {n : D3Node}
    (hn : n ∈ s.nodes) : ∃ i, i < s.nodes.length ∧ n.id = nodeIdAt i := by
  have hm : n.id ∈ s.nodes.map D3Node.id := List.mem_map_of_mem _ hn
  rw [hs.ids_eq] at hm
  obtain ⟨i, hi, hid⟩ := List.mem_map.mp hm
  exact ⟨i, List.mem_range.mp hi, hid.symm⟩

theorem target_at {s : BuildState} (hs : BuildInv s) (j : Nat)
    (h : j < s.links.length) :
    (s.links.get ⟨j, h⟩).target = nodeIdAt (j + 1) := by
  have hj1 : j < (s.links.map D3Link.target).length := by simpa using h
  have he := List.getElem_of_eq hs.targets_eq hj1
  rw [List.getElem_map] at he
  have hj2 : j < (List.range' 1 s.links.length).length := by simpa using h
  rw [List.getElem_map] at he
  rw [List.getElem_range'_1] at he
  simp only [List.get_eq_getElem]
  rw [he, Nat.add_comm]

theorem source_at {s : BuildState} (hs : BuildInv s) (j : Nat)
    (h : j < s.links.length) :
    ∃ i, i ≤ j ∧ (s.links.get ⟨j, h⟩).source = nodeIdAt i :=
  hs.sources_ok j h

theorem links_countP_one {s : BuildState} (hs : BuildInv s) {i : Nat}
    (h1 : 1 ≤ i) (h2 : i < s.nodes.length) :
    s.links.countP (fun l => l.target == nodeIdAt i) = 1 := by
  have hmapeq : (s.links.map D3Link.target).countP (fun t => t == nodeIdAt i) =
      s.links.countP (fun l => l.target == nodeIdAt i) := by
    rw [List.countP_map]
    rfl
  rw [← hmapeq, hs.targets_eq, List.countP_map]
  have hcongr : (List.range' 1 s.links.length).countP
      ((fun t => t == nodeIdAt i) ∘ nodeIdAt) =
      (List.range' 1 s.links.length).countP (fun j => j == i) := by
    apply List.countP_congr
    intro x _
    simp only [Function.comp_apply, beq_iff_eq]
    constructor
    · intro hx
      exact nodeIdAt_injective hx
    · intro hx
      rw [hx]
  rw [hcongr]
  apply countP_beq_nodup (List.nodup_range' 1 s.links.length)
  rw [List.mem_range']
  have hll := hs.links_len
  exact ⟨i - 1, by omega, by omega⟩

theorem tail_ids {s : BuildState} (hs : BuildInv s) {x : D3Node}
    {xs : List D3Node} (hnl : s.nodes = x :: xs) :
    ∀ a ∈ xs, ∃ k, a.id = nodeIdAt (k + 1) := by
  intro a ha
  have hmap := hs.ids_eq
  rw [hnl] at hmap
  simp only [List.length_cons, List.range_succ_eq_map, List.map_cons,
    List.map_map] at hmap
  have htail : xs.map D3Node.id = (List.range xs.length).map (nodeIdAt ∘ Nat.succ) :=
    (List.cons.inj hmap).2
  have hmem : a.id ∈ xs.map D3Node.id := List.mem_map_of_mem _ ha
  rw [htail] at hmem
  obtain ⟨k, _, hk⟩ := List.mem_map.mp hmem
  exact ⟨k, hk.symm⟩

theorem filter_root_eq {s : BuildState} (hs : BuildInv s) :
    s.nodes.filter (fun n => n.id == "root") =
      [{ id := "root", group := 0, label := "root" }] := by
  rcases hnl : s.nodes with _ | ⟨x, xs⟩
  · have hll := hs.links_len
    rw [hnl] at hll
    simp at hll
  · have hx : x = { id := "root", group := 0, label := "root" } := by
      have hh := hs.head_root
      rw [hnl] at hh
      simpa using hh
    have htl : xs.filter (fun n => n.id == "root") = [] := by
      rw [List.filter_eq_nil_iff]
      intro a ha
      obtain ⟨k, hk⟩ := tail_ids hs hnl a ha
      simp only [beq_iff_eq]
      rw [hk, nodeIdAt]
      exact node_ne_root _
    rw [List.filter_cons_of_pos (by rw [hx]; rfl), htl]
    rw [hx]

/-! ### The rooted-tree shape of the output graph -/

/-- Reachability along the graph's directed links, starting from the
root id. -/
inductive Reaches (g : DataFlowGraph) : String → Prop
  | root : Reaches g "root"
  | step (a b : String) (ha : Reaches g a)
      (hl : ∃ l ∈ g.links, l.source = a ∧ l.target = b) : Reaches g b

/-- The output graph is a tree rooted at the node with id `"root"`:
every non-root node has exactly one incoming link, no link enters the
root, every node's id is reachable from the root (no orphan), and every
link goes from an earlier-created node to a later-created one (a
topological order, hence no cycle). -/
def IsTreeRootedAtRoot (g : DataFlowGraph) : Prop :=
  (∀ n ∈ g.nodes, n.id ≠ "root" →
    g.links.countP (fun l => l.target == n.id) = 1) ∧
  (∀ l ∈ g.links, l.target ≠ "root") ∧
  (∀ n ∈ g.nodes, Reaches g n.id) ∧
  (∀ l ∈ g.links, ∃ i j, i < j ∧
    ∃ hi : i < g.nodes.length, ∃ hj : j < g.nodes.length,
      (g.nodes.get ⟨i, hi⟩).id = l.source ∧ (g.nodes.get ⟨j, hj⟩).id = l.target)

theorem reaches_nodeIdAt {s : BuildState} (hs : BuildInv s) :
    ∀ i, i < s.nodes.length →
      Reaches { nodes := s.nodes, links := s.links } (nodeIdAt i) := by
  intro i
  induction i using Nat.strong_induction_on with
  | _ i ih =>
    intro hi
    cases i with
    | zero => exact Reaches.root
    | succ j =>
      have hj : j < s.links.length := by
        have := hs.links_len
        omega
      obtain ⟨k, hk, hsrc⟩ := source_at hs j hj
      have hreach : Reaches { nodes := s.nodes, links := s.links } (nodeIdAt k) := by
        apply ih k (by omega)
        have := hs.links_len
        omega
      refine Reaches.step (nodeIdAt k) (nodeIdAt (j + 1)) hreach ?_
      refine ⟨s.links.get ⟨j, hj⟩, List.get_mem _ _ _, hsrc.symm ▸ rfl, ?_⟩
      exact target_at hs j hj

theorem state_isTree {s : BuildState} (hs : BuildInv s) :
    IsTreeRootedAtRoot { nodes := s.nodes, links := s.links } := by
  refine ⟨?_, ?_, ?_, ?_⟩
  · intro n hn hroot
    obtain ⟨i, hi, hid⟩ := mem_nodes_id hs hn
    have h1 : 1 ≤ i := by
      rcases Nat.eq_zero_or_pos i with rfl | hpos
      · exact absurd hid hroot
      · omega
    rw [hid]
    exact links_countP_one hs h1 hi
  · intro l hl
    obtain ⟨j, hget⟩ := List.mem_iff_get.mp hl
    rcases j with ⟨j, hj⟩
    have := target_at hs j hj
    rw [hget] at this
    rw [this]
    exact nodeIdAt_ne_root (by omega)
  · intro n hn
    obtain ⟨i, hi, hid⟩ := mem_nodes_id hs hn
    rw [hid]
    exact reaches_nodeIdAt hs i hi
  · intro l hl
    obtain ⟨j, hget⟩ := List.mem_iff_get.mp hl
    rcases j with ⟨j, hj⟩
    obtain ⟨i, hij, hsrc⟩ := source_at hs j hj
    have htgt := target_at hs j hj
    rw [hget] at hsrc htgt
    have hll := hs.links_len
    have hjlt : j < s.links.length := hj
    have hi' : i < s.nodes.length := by omega
    have hj2 : j + 1 < s.nodes.length := by omega
    refine ⟨i, j + 1, by omega, hi', hj2, ?_, ?_⟩
    · have hidseq := hs.ids_eq
      have hi' : i < s.nodes.length := by omega
      have h1 : i < (s.nodes.map D3Node.id).length := by simpa using hi'
      have he := List.getElem_of_eq hidseq h1
      rw [List.getElem_map] at he
      rw [List.getElem_map] at he
      rw [List.getElem_range] at he
      simp only [List.get_eq_getElem]
      rw [he, hsrc]
    · have hidseq := hs.ids_eq
      have hj' : j + 1 < s.nodes.length := by omega
      have h1 : j + 1 < (s.nodes.map D3Node.id).length := by simpa using hj'
      have he := List.getElem_of_eq hidseq h1
      rw [List.getElem_map] at he
      rw [List.getElem_map] at he
      rw [List.getElem_range] at he
      simp only [List.get_eq_getElem]
      rw [he, htgt]

/-! ### The checked pipeline never fails -/

theorem processPartChecked_eq (s : BuildState) (cp pid part : String)
    (b : Bool) :
    processPartChecked s cp pid part b = some (processPart s cp pid part b) := by
  cases h : s.pathMap.lookup (joinStep cp part) with
  | some v =>
    rw [processPart_eq_found s cp pid part b h]
    simp [processPartChecked, h]
  | none =>
    rw [processPart_eq_new s cp pid part b h]
    simp [processPartChecked, h, lookup_cons_self, newNode, newLink]

theorem processPartsChecked_eq (parts : List String) :
    ∀ (s : BuildState) (cp pid : String),
      processPartsChecked s cp pid parts = some (processParts s cp pid parts) := by
  induction parts with
  | nil => intro s cp pid; rfl
  | cons part rest ih =>
    intro s cp pid
    rw [processPartsChecked, processParts, processPartChecked_eq]
    exact ih _ _ _

theorem processEntryChecked_eq (s : BuildState) (e : FileEntry) :
    processEntryChecked s e = some (processEntry s e) :=
  processPartsChecked_eq _ s "" "root"

theorem foldlM_checked_eq (l : List FileEntry) :
    ∀ s : BuildState,
      l.foldlM processEntryChecked s = some (l.foldl processEntry s) := by
  induction l with
  | nil => intro s; rfl
  | cons e rest ih =>
    intro s
    rw [List.foldlM_cons, processEntryChecked_eq]
    simp only [Option.bind_eq_bind, Option.some_bind]
    rw [List.foldl_cons]
    exact ih _

/-! ### The claims -/

/-- Claim C1: for every input collection of `FileEntry` records, in the
graph returned by the graph assembler every node other than the root has
exactly one incoming edge, and the edge set forms a tree rooted at the
node with id `"root"`: no link enters the root, every link goes from an
earlier-created node to a later-created one (so there is no cycle), and
every node is reachable from the root (no orphan). -/
theorem C1_output_is_rooted_tree (tree : List FileEntry) :
    IsTreeRootedAtRoot (generateGraphFromTree tree) :=
  state_isTree (inv_generate tree)

theorem C1_output_is_rooted_tree_witness :
    (generateGraphFromTree [{ path := "src/a.ts", type := "blob" }]).links.countP
      (fun l => l.target == "node_2") = 1 := by
  have h := C1_output_is_rooted_tree [{ path := "src/a.ts", type := "blob" }]
  exact h.1 { id := "node_2", group := 2, label := "a.ts" } (by decide) (by decide)

/-- Claim C4: the output graph is built from at most the first 100
entries in input order, so the assembler applied to the full input
equals the assembler applied to the input's first 100 entries. -/
theorem C4_truncates_to_first_100 (tree : List FileEntry) :
    generateGraphFromTree tree = generateGraphFromTree (tree.take 100) := by
  simp [generateGraphFromTree, List.take_take]

/-- Claim C6: for every input collection, the output contains exactly
one node with id `"root"` (it has group 0 and label `"root"`), and no
edge has `"root"` as its target. -/
theorem C6_unique_untargeted_root (tree : List FileEntry) :
    (generateGraphFromTree tree).nodes.filter (fun n => n.id == "root") =
      [{ id := "root", group := 0, label := "root" }] ∧
    ∀ l ∈ (generateGraphFromTree tree).links, l.target ≠ "root" := by
  have hinv := inv_generate tree
  exact ⟨filter_root_eq hinv, (state_isTree hinv).2.1⟩

theorem C6_unique_untargeted_root_witness :
    (generateGraphFromTree [{ path := "a/b", type := "blob" }]).nodes.filter
        (fun n => n.id == "root") =
      [{ id := "root", group := 0, label := "root" }] ∧
    ({ source := "root", target := "node_1", value := 1 } : D3Link).target ≠
      "root" := by
  have h := C6_unique_untargeted_root [{ path := "a/b", type := "blob" }]
  exact ⟨h.1, h.2 { source := "root", target := "node_1", value := 1 } (by decide)⟩

/-- Claim C7: the graph assembler is deterministic: two invocations on
the same input produce the same graph, and the ids are assigned as
`"node_1"`, `"node_2"`, ... by position, i.e. purely in first-seen order
of distinct cumulative paths (`nodeIdAt` maps each node position to its
id), independently of anything but the input order. -/
theorem C7_deterministic_id_allocation (tree : List FileEntry) :
    generateGraphFromTree tree = generateGraphFromTree tree ∧
    (generateGraphFromTree tree).nodes.map D3Node.id =
      (List.range (generateGraphFromTree tree).nodes.length).map nodeIdAt :=
  ⟨rfl, (inv_generate tree).ids_eq⟩

/-- Claim C8: the graph assembler is total — the checked variant, which
fails exactly where the source's non-null lookup assertion
`pathMap.get(currentPath)!` would fail, always returns the same graph as
the assembler — and the empty collection yields the root-only graph. -/
theorem C8_total_and_empty_graph (tree : List FileEntry) :
    generateGraphFromTreeChecked tree = some (generateGraphFromTree tree) ∧
    generateGraphFromTree [] =
      { nodes := [{ id := "root", group := 0, label := "root" }],
        links := [] } := by
  constructor
  · rw [generateGraphFromTreeChecked, foldlM_checked_eq]
    rfl
  · rfl

/-! ### Deduplication: a prefix seen again creates nothing -/

/-- The cumulative path strings an entry's segment list will visit,
starting from cumulative path `cp`. -/
def cumPaths (cp : String) : List String → List String
  | [] => []
  | part :: rest => joinStep cp part :: cumPaths (joinStep cp part) rest

theorem processParts_cumPaths_present (parts : List String) :
    ∀ (s : BuildState) (cp pid : String), ∀ q ∈ cumPaths cp parts,
      ∃ v, (processParts s cp pid parts).pathMap.lookup q = some v := by
  induction parts with
  | nil => intro s cp pid q hq; simp [cumPaths] at hq
  | cons part rest ih =>
    intro s cp pid q hq
    rw [processParts]
    rcases List.mem_cons.mp hq with rfl | hmem
    · have hstep : ∃ v,
          (processPart s cp pid part rest.isEmpty).1.pathMap.lookup
            (joinStep cp part) = some v := by
        cases h : s.pathMap.lookup (joinStep cp part) with
        | some v =>
          rw [processPart_eq_found s cp pid part rest.isEmpty h]
          exact ⟨v, h⟩
        | none =>
          rw [processPart_eq_new s cp pid part rest.isEmpty h]
          exact ⟨_, lookup_cons_self⟩
      obtain ⟨v, hv⟩ := hstep
      obtain ⟨_, _, hmono⟩ := processParts_mono rest
        (processPart s cp pid part rest.isEmpty).1
        (processPart s cp pid part rest.isEmpty).2.1
        (processPart s cp pid part rest.isEmpty).2.2
      exact ⟨v, hmono _ _ hv⟩
    · have hcp : (processPart s cp pid part rest.isEmpty).2.1 = joinStep cp part :=
        (processPart_mono s cp pid part rest.isEmpty).2.2.2
      have := ih (processPart s cp pid part rest.isEmpty).1
        (processPart s cp pid part rest.isEmpty).2.1
        (processPart s cp pid part rest.isEmpty).2.2 q
      rw [hcp] at this
      exact this hmem

theorem processParts_no_op (parts : List String) :
    ∀ (s : BuildState) (cp pid : String),
      (∀ q ∈ cumPaths cp parts, ∃ v, s.pathMap.lookup q = some v) →
      processParts s cp pid parts = s := by
  induction parts with
  | nil => intro s cp pid _; rfl
  | cons part rest ih =>
    intro s cp pid hall
    rw [processParts]
    obtain ⟨v, hv⟩ := hall (joinStep cp part) (by simp [cumPaths])
    rw [processPart_eq_found s cp pid part rest.isEmpty hv]
    apply ih
    intro q hq
    exact hall q (by simp [cumPaths, hq])

/-- Folding the same entry a second time changes nothing: every
cumulative path of the entry is already registered. -/
theorem processEntry_idem (s : BuildState) (e : FileEntry) :
    processEntry (processEntry s e) e = processEntry s e := by
  rw [processEntry, processEntry]
  apply processParts_no_op
  intro q hq
  exact processParts_cumPaths_present _ s "" "root" q hq

/-- Claim C2: node identity is keyed by the cumulative path: the two
entries `src/a.ts` and `src/b.ts` share one node for `src` (one node
carries label `src`), the entries `a/x.ts` and `b/x.ts` yield two
distinct nodes labelled `x.ts`, and whenever a cumulative path recurs
nothing new is created — refolding an already-folded entry leaves the
accumulator unchanged. -/
theorem C2_dedup_by_cumulative_path :
    generateGraphFromTree
        [{ path := "src/a.ts", type := "blob" },
         { path := "src/b.ts", type := "blob" }] =
      { nodes := [{ id := "root", group := 0, label := "root" },
                  { id := "node_1", group := 5, label := "src" },
                  { id := "node_2", group := 2, label := "a.ts" },
                  { id := "node_3", group := 2, label := "b.ts" }],
        links := [{ source := "root", target := "node_1", value := 1 },
                  { source := "node_1", target := "node_2", value := 1 },
                  { source := "node_1", target := "node_3", value := 1 }] } ∧
    (generateGraphFromTree
        [{ path := "src/a.ts", type := "blob" },
         { path := "src/b.ts", type := "blob" }]).nodes.countP
      (fun n => n.label == "src") = 1 ∧
    (generateGraphFromTree
        [{ path := "a/x.ts", type := "blob" },
         { path := "b/x.ts", type := "blob" }]).nodes.countP
      (fun n => n.label == "x.ts") = 2 ∧
    ∀ (s : BuildState) (e : FileEntry),
      processEntry (processEntry s e) e = processEntry s e :=
  ⟨by decide, by decide, by decide, processEntry_idem⟩

/-- Claim C9: a node's group is fixed when its cumulative path is first
seen and never updated: folding further entries only appends to the node
list, and for the input `a.ts`, `a.ts/b` the node for `a.ts` keeps its
file group 2 while acquiring an outgoing edge, so a node with outgoing
edges need not have the folder group 5. -/
theorem C9_group_fixed_at_creation :
    (∀ (s : BuildState) (e : FileEntry),
      s.nodes <+: (processEntry s e).nodes) ∧
    generateGraphFromTree
        [{ path := "a.ts", type := "blob" },
         { path := "a.ts/b", type := "blob" }] =
      { nodes := [{ id := "root", group := 0, label := "root" },
                  { id := "node_1", group := 2, label := "a.ts" },
                  { id := "node_2", group := 1, label := "b" }],
        links := [{ source := "root", target := "node_1", value := 1 },
                  { source := "node_1", target := "node_2", value := 1 }] } :=
  ⟨fun s e => (processEntry_mono s e).1, by decide⟩

/-! ### The extension-to-group classification -/

/-- The extension table in the specification's phrasing, applied to one
extension token: membership tests in priority order. -/
def groupOfExt (ext : String) : Nat :=
  if ext ∈ ["ts", "tsx", "js", "jsx"] then 2
  else if ext ∈ ["css", "scss", "html"] then 3
  else if ext ∈ ["json", "yml", "config"] then 4
  else 1

theorem contains_eq_true_iff {l : List String} {a : String} :
    l.contains a = true ↔ a ∈ l := by
  rw [List.contains]
  exact List.elem_iff

theorem extGroup_eq_groupOfExt (part : String) :
    extGroup part = groupOfExt ((jsSplit part '.').getLastD "") := by
  simp only [extGroup, groupOfExt]
  generalize (jsSplit part '.').getLastD "" = e
  by_cases h1 : e ∈ (["ts", "tsx", "js", "jsx"] : List String)
  · have h2 : e ∉ (["css", "scss", "html"] : List String) := by
      simp only [List.mem_cons, List.not_mem_nil, or_false] at h1
      rcases h1 with h | h | h | h <;> rw [h] <;> decide
    have h3 : e ∉ (["json", "yml", "config"] : List String) := by
      simp only [List.mem_cons, List.not_mem_nil, or_false] at h1
      rcases h1 with h | h | h | h <;> rw [h] <;> decide
    have hb1 : (["ts", "tsx", "js", "jsx"] : List String).contains e = true :=
      contains_eq_true_iff.mpr h1
    have hb2 : (["css", "scss", "html"] : List String).contains e = false := by
      rw [← Bool.not_eq_true, contains_eq_true_iff]
      exact h2
    have hb3 : (["json", "yml", "config"] : List String).contains e = false := by
      rw [← Bool.not_eq_true, contains_eq_true_iff]
      exact h3
    simp only [hb1, hb2, hb3]
    simp [h1]
  · by_cases h2 : e ∈ (["css", "scss", "html"] : List String)
    · have h3 : e ∉ (["json", "yml", "config"] : List String) := by
        simp only [List.mem_cons, List.not_mem_nil, or_false] at h2
        rcases h2 with h | h | h <;> rw [h] <;> decide
      have hb1 : (["ts", "tsx", "js", "jsx"] : List String).contains e = false := by
        rw [← Bool.not_eq_true, contains_eq_true_iff]
        exact h1
      have hb2 : (["css", "scss", "html"] : List String).contains e = true :=
        contains_eq_true_iff.mpr h2
      have hb3 : (["json", "yml", "config"] : List String).contains e = false := by
        rw [← Bool.not_eq_true, contains_eq_true_iff]
        exact h3
      simp only [hb1, hb2, hb3]
      simp [h1, h2]
    · by_cases h3 : e ∈ (["json", "yml", "config"] : List String)
      · have hb1 : (["ts", "tsx", "js", "jsx"] : List String).contains e = false := by
          rw [← Bool.not_eq_true, contains_eq_true_iff]
          exact h1
        have hb2 : (["css", "scss", "html"] : List String).contains e = false := by
          rw [← Bool.not_eq_true, contains_eq_true_iff]
          exact h2
        have hb3 : (["json", "yml", "config"] : List String).contains e = true :=
          contains_eq_true_iff.mpr h3
        simp only [hb1, hb2, hb3]
        simp [h1, h2, h3]
      · have hb1 : (["ts", "tsx", "js", "jsx"] : List String).contains e = false := by
          rw [← Bool.not_eq_true, contains_eq_true_iff]
          exact h1
        have hb2 : (["css", "scss", "html"] : List String).contains e = false := by
          rw [← Bool.not_eq_true, contains_eq_true_iff]
          exact h2
        have hb3 : (["json", "yml", "config"] : List String).contains e = false := by
          rw [← Bool.not_eq_true, contains_eq_true_iff]
          exact h3
        simp only [hb1, hb2, hb3]
        simp [h1, h2, h3]

/-- Claim C3 counterexample: the claim states that a final segment with
no `.` always gets group 1, but for the entry `ts` — a single dotless
segment — the assembler assigns group 2, because `split('.').pop()` of a
dotless segment is the whole segment and `"ts"` is in the code list. -/
theorem C3_counterexample :
    (generateGraphFromTree [{ path := "ts", type := "blob" }]).nodes =
      [{ id := "root", group := 0, label := "root" },
       { id := "node_1", group := 2, label := "ts" }] ∧
    ¬ ((generateGraphFromTree [{ path := "ts", type := "blob" }]).nodes.getD 1
        { id := "", group := 0, label := "" }).group = 1 := by
  decide

/-- Claim C3 (amended): each node created for a non-final segment gets
group 5 and the node for the final segment gets the extension group; the
extension token is the substring after the final `.`, or the whole
segment when no `.` occurs, so a dotless segment equal to one of the
eleven listed strings gets that list's group (e.g. `ts` gets 2) and any
other dotless segment (e.g. `README`) gets 1; the listed extensions map
as ts/tsx/js/jsx to 2, css/scss/html to 3, json/yml/config to 4,
case-sensitively, and anything else to 1. -/
theorem C3_group_classification :
    (∀ part : String,
      extGroup part = groupOfExt ((jsSplit part '.').getLastD "")) ∧
    (∀ (s : BuildState) (cp pid part : String) (b : Bool),
      (processPart s cp pid part b).1.nodes = s.nodes ∨
      (processPart s cp pid part b).1.nodes =
        s.nodes ++ [{ id := "node_" ++ toString s.nodeIdCounter,
                      group := if b then extGroup part else 5,
                      label := part }]) ∧
    (generateGraphFromTree [{ path := "styles/app.css", type := "blob" }]).nodes =
      [{ id := "root", group := 0, label := "root" },
       { id := "node_1", group := 5, label := "styles" },
       { id := "node_2", group := 3, label := "app.css" }] ∧
    (generateGraphFromTree
        [{ path := "config/settings.json", type := "blob" }]).nodes =
      [{ id := "root", group := 0, label := "root" },
       { id := "node_1", group := 5, label := "config" },
       { id := "node_2", group := 4, label := "settings.json" }] ∧
    (generateGraphFromTree [{ path := "README", type := "blob" }]).nodes =
      [{ id := "root", group := 0, label := "root" },
       { id := "node_1", group := 1, label := "README" }] ∧
    (generateGraphFromTree [{ path := "ts", type := "blob" }]).nodes =
      [{ id := "root", group := 0, label := "root" },
       { id := "node_1", group := 2, label := "ts" }] := by
  refine ⟨extGroup_eq_groupOfExt, ?_, by decide, by decide, by decide, by decide⟩
  intro s cp pid part b
  cases h : s.pathMap.lookup (joinStep cp part) with
  | some v =>
    left
    rw [processPart_eq_found s cp pid part b h]
  | none =>
    right
    rw [processPart_eq_new s cp pid part b h]
    rfl

/-- Claim C5 counterexample: the claim states splitting collapses `//`
and never creates an empty-label node, with `a//b` equal to `a/b`; in
fact `a//b` creates exactly one empty-label node and the two graphs
differ. -/
theorem C5_counterexample :
    (generateGraphFromTree [{ path := "a//b", type := "blob" }]).nodes.countP
      (fun n => n.label == "") = 1 ∧
    generateGraphFromTree [{ path := "a//b", type := "blob" }] ≠
      generateGraphFromTree [{ path := "a/b", type := "blob" }] := by
  decide

/-- Claim C5 (amended): splitting on `/` keeps empty tokens: a doubled
separator yields a node whose label is the empty string, so `a//b`
produces one more node than `a/b` (labels root, a, empty, b against
root, a, b) rather than the same nodes. -/
theorem C5_empty_segments_preserved :
    (generateGraphFromTree [{ path := "a//b", type := "blob" }]).nodes.map
      D3Node.label = ["root", "a", "", "b"] ∧
    generateGraphFromTree [{ path := "a//b", type := "blob" }] =
      { nodes := [{ id := "root", group := 0, label := "root" },
                  { id := "node_1", group := 5, label := "a" },
                  { id := "node_2", group := 5, label := "" },
                  { id := "node_3", group := 1, label := "b" }],
        links := [{ source := "root", target := "node_1", value := 1 },
                  { source := "node_1", target := "node_2", value := 1 },
                  { source := "node_2", target := "node_3", value := 1 }] } ∧
    generateGraphFromTree [{ path := "a/b", type := "blob" }] =
      { nodes := [{ id := "root", group := 0, label := "root" },
                  { id := "node_1", group := 5, label := "a" },
                  { id := "node_2", group := 1, label := "b" }],
        links := [{ source := "root", target := "node_1", value := 1 },
                  { source := "node_1", target := "node_2", value := 1 }] } := by
  refine ⟨by decide, by decide, by decide⟩

/-! ### The spec's description of the repository-input routine -/

/-- The bare `owner/repo` branch as the claim words it: exactly one `/`
(the split yields exactly two pieces) and both halves non-empty. -/
def bareToken (c : String) : Option (String × String) :=
  match jsSplit c '/' with
  | [owner, repo] =>
    if owner = "" ∨ repo = "" then none else some (owner, repo)
  | _ => none

/-- Claim C10's description of the input routine, written from the
spec's words: after trimming and dropping one trailing slash, a
`github.com` URL with at least two non-empty path segments yields its
first two segments; otherwise a bare `owner/repo` token yields its two
halves; every other input fails. -/
def specRepoExtract (input : String) : Option (String × String) :=
  let c := stripTrailingSlash (jsTrim input)
  match parseUrl? c with
  | some u =>
    if u.hostname = "github.com" ∧
        2 ≤ ((jsSplit u.pathname '/').filter (fun p => p ≠ "")).length then
      some (((jsSplit u.pathname '/').filter (fun p => p ≠ "")).getD 0 "",
            ((jsSplit u.pathname '/').filter (fun p => p ≠ "")).getD 1 "")
    else bareToken c
  | none => bareToken c

theorem bare_eq (c : String) :
    (match jsSplit c '/' with
     | [owner, repo] =>
       if owner ≠ "" ∧ repo ≠ "" then some (owner, repo) else none
     | _ => none) = bareToken c := by
  rw [bareToken]
  cases h : jsSplit c '/' with
  | nil => rfl
  | cons o rest =>
    cases rest with
    | nil => rfl
    | cons r rest2 =>
      cases rest2 with
      | nil =>
        by_cases ho : o = "" <;> by_cases hr : r = "" <;> simp [ho, hr]
      | cons x xs => rfl

theorem parseRepoInput_eq_spec (input : String) :
    parseRepoInput input = specRepoExtract input := by
  simp only [parseRepoInput, specRepoExtract]
  cases hu : parseUrl? (stripTrailingSlash (jsTrim input)) with
  | none => exact bare_eq _
  | some u =>
    simp only []
    by_cases hh : u.hostname = "github.com"
    · generalize hg : (jsSplit u.pathname '/').filter (fun p => p ≠ "") = fl
      cases fl with
      | nil => simp [hh, ← bare_eq]
      | cons o rest =>
        cases rest with
        | nil => simp [hh, ← bare_eq]
        | cons r rest2 => simp [hh]
    · simp [hh, ← bare_eq]

/-- Claim C10: the upstream input routine extracts an owner/repo pair
from either a bare `owner/repo` token (both halves non-empty, exactly
one slash) or a `github.com` URL whose path has at least two non-empty
segments, after trimming and ignoring one trailing slash; every other
input yields `none`.  Stated as the equality of `parseRepoInput` with
the specification-worded extractor, plus concrete checks; the browser
`URL` constructor is modelled by the simplified `parseUrl?` shared by
both sides. -/
theorem C10_owner_repo_extraction :
    (∀ input : String, parseRepoInput input = specRepoExtract input) ∧
    parseRepoInput " owner/repo/ " = some ("owner", "repo") ∧
    parseRepoInput "https://github.com/foo/bar" = some ("foo", "bar") ∧
    parseRepoInput "https://github.com/foo/bar/" = some ("foo", "bar") ∧
    parseRepoInput "https://github.com/foo/bar/extra" = some ("foo", "bar") ∧
    parseRepoInput "https://github.com/onlyowner" = none ∧
    parseRepoInput "https://gitlab.com/a/b" = none ∧
    parseRepoInput "a/b/c" = none ∧
    parseRepoInput "a/b//" = none ∧
    parseRepoInput "" = none :=
  ⟨parseRepoInput_eq_spec, by decide, by decide, by decide, by decide,
   by decide, by decide, by decide, by decide, by decide⟩
